import Mathlib

/-!
# Verification of `analyze_holopatcher_deps.py`

A shallow embedding of the vendored-tree pruning script: the import
extractor (`find_imports_in_file`), the dependency-closure builder
(`find_all_dependencies`), the set reporter, and the cleanup executor
(file unlinking with empty-parent-directory pruning) from `main`.

Paths are modelled as lists of name segments relative to the current
working directory.  Python `set`s are modelled as Lean lists with
membership semantics (sets in the script are only ever queried for
membership, iterated, or subtracted).  The filesystem is a static
snapshot: a list of files (each with a path, a parse result, a byte
size, and a lock flag making deletion fail) and a list of directories.
-/

/-- A filesystem path, as its list of name segments. -/
abbrev FsPath := List String

/-- One `import` / `from … import` statement, as the `ast` walk of the
script sees it: `ast.Import` carries a list of dotted alias names;
`ast.ImportFrom` carries `node.module`, which is `None` for a purely
relative import (`from . import x`). -/
inductive ImpStmt where
  | imp (names : List String)
  | fromImp (module : Option String)
deriving DecidableEq, Repr

/-- A source file in the snapshot.  `stmts = none` models text that
`ast.parse` rejects (a parse failure); `some l` models a file whose
statements of import are exactly `l`.  `locked = true` makes `unlink`
raise (permission denied). -/
structure PyFile where
  path : FsPath
  stmts : Option (List ImpStmt)
  size : Nat
  locked : Bool
deriving DecidableEq, Repr

/-- The filesystem snapshot the script runs against. -/
structure FS where
  files : List PyFile
  dirs : List FsPath
deriving DecidableEq, Repr

/-- Models `open(p)`: succeeds on the first file at path `p`. -/
def FS.lookup (fs : FS) (p : FsPath) : Option PyFile :=
  fs.files.find? (fun f => f.path = p)

/-- Models `Path.exists()` for a file. -/
def FS.fileExists (fs : FS) (p : FsPath) : Bool :=
  fs.files.any (fun f => f.path = p)

/-- Models `Path.exists()` for a directory. -/
def FS.dirExists (fs : FS) (p : FsPath) : Bool :=
  fs.dirs.contains p

/-- Python's `str.endswith`, executably over the character list. -/
def strEndsWith (s suffix : String) : Bool :=
  suffix.data.isSuffixOf s.data

/-- Models pathlib's `suffix == ".py"` test: the name ends in `".py"` with a
nonempty stem (`Path(".py").suffix` is `""`). -/
def isPyName (s : String) : Bool :=
  strEndsWith s ".py" && s != ".py"

/-- Models `current.suffix == ".py"` on a path. -/
def pathIsPy (p : FsPath) : Bool :=
  match p.getLast? with
  | some s => isPyName s
  | none => false

/-- Match of a name against the glob pattern `*.py`, as `fnmatch` does. -/
def globPy (s : String) : Bool :=
  strEndsWith s ".py"

/-- Tests whether `p` lies strictly below directory `d`. -/
def strictUnder (d p : FsPath) : Bool :=
  d.isPrefixOf p && decide (d.length < p.length)

/-- Models `d.rglob("*.py")`: every file strictly under `d` whose name matches
`*.py`. -/
def rglobPy (fs : FS) (d : FsPath) : List FsPath :=
  (fs.files.filter (fun f =>
    strictUnder d f.path && globPy (f.path.getLastD ""))).map (fun f => f.path)

/-- Characters of a dotted name before its first `'.'`. -/
def takeUntilDot : List Char → List Char
  | [] => []
  | c :: cs => if c = '.' then [] else c :: takeUntilDot cs

/-- Models `alias.name.split(".")[0]` and `node.module.split(".")[0]`: the first
dotted segment. -/
def topName (s : String) : String :=
  String.mk (takeUntilDot s.data)

/-- The names one statement contributes to the `imports` set. -/
def stmtNames : ImpStmt → List String
  | .imp names => names.map topName
  | .fromImp (some m) => [topName m]
  | .fromImp none => []

/-- Models `find_imports_in_file`: first component is the `imports` set, second
the warnings printed.  A missing file (failed `open`) or a parse failure
is caught by the `except` clause: a warning is printed and the empty set
returned. -/
def find_imports_in_file (fs : FS) (p : FsPath) : List String × List String :=
  match fs.lookup p with
  | some f =>
    match f.stmts with
    | some stmts => ((stmts.flatMap stmtNames).dedup, [])
    | none => ([], ["Warning: Could not parse " ++ String.intercalate "/" p])
  | none => ([], ["Warning: Could not parse " ++ String.intercalate "/" p])

/-- The hard-coded first-party root allow-list of
`find_all_dependencies`. -/
def rootSet : List String := ["pykotor", "utility", "holopatcher", "loggerplus"]

/-- Count of snapshot files whose path is not yet visited; first
component of the loop's termination measure. -/
def unvisitedCount (fs : FS) (visited : List FsPath) : Nat :=
  ((fs.files.map (fun f => f.path)).filter (fun p => ¬ p ∈ visited)).length

theorem length_filter_le_of_imp {α : Type} (l : List α) (p q : α → Bool)
    (h : ∀ a ∈ l, q a = true → p a = true) :
    (l.filter q).length ≤ (l.filter p).length := by
  induction l with
  | nil => simp
  | cons a l ih =>
    have ih' := ih (fun a ha => h a (List.mem_cons_of_mem _ ha))
    by_cases hq : q a = true
    · have hp : p a = true := h a (List.mem_cons_self _ _) hq
      simp [List.filter_cons, hq, hp]
      omega
    · by_cases hp : p a = true
      · simp [List.filter_cons, hq, hp]
        omega
      · simp [List.filter_cons, hq, hp]
        exact ih'

theorem length_filter_lt_of_witness {α : Type} (l : List α) (p q : α → Bool)
    (h : ∀ a ∈ l, q a = true → p a = true)
    (a : α) (ha : a ∈ l) (hpa : p a = true) (hqa : q a = false) :
    (l.filter q).length < (l.filter p).length := by
  induction l with
  | nil => cases ha
  | cons b l ih =>
    have hle : (l.filter q).length ≤ (l.filter p).length :=
      length_filter_le_of_imp l p q (fun x hx => h x (List.mem_cons_of_mem _ hx))
    rcases List.mem_cons.mp ha with rfl | ha'
    · have hqa' : ¬ q a = true := by simp [hqa]
      simp [List.filter_cons, hpa, hqa']
      omega
    · have ih' := ih (fun x hx => h x (List.mem_cons_of_mem _ hx)) ha'
      by_cases hq : q b = true
      · have hp : p b = true := h b (List.mem_cons_self _ _) hq
        simp [List.filter_cons, hq, hp]
        omega
      · by_cases hp : p b = true
        · simp [List.filter_cons, hq, hp]
          omega
        · simp [List.filter_cons, hq, hp]
          exact ih'

theorem unvisitedCount_cons_le (fs : FS) (visited : List FsPath) (c : FsPath) :
    unvisitedCount fs (c :: visited) ≤ unvisitedCount fs visited := by
  apply length_filter_le_of_imp
  intro p _ hq
  simp only [decide_eq_true_eq] at *
  intro hmem
  exact hq (List.mem_cons_of_mem _ hmem)

theorem unvisitedCount_cons_lt (fs : FS) (visited : List FsPath) (c : FsPath)
    (hex : fs.fileExists c = true) (hv : ¬ c ∈ visited) :
    unvisitedCount fs (c :: visited) < unvisitedCount fs visited := by
  have h1 : ∀ x ∈ fs.files.map (fun f => f.path),
      (decide (¬ x ∈ c :: visited)) = true → (decide (¬ x ∈ visited)) = true := by
    intro x _ hx
    simp only [decide_eq_true_eq] at *
    intro hmem
    exact hx (List.mem_cons_of_mem _ hmem)
  have h2 : c ∈ fs.files.map (fun f => f.path) := by
    simp only [FS.fileExists, List.any_eq_true, decide_eq_true_eq] at hex
    obtain ⟨f, hf, hfp⟩ := hex
    exact List.mem_map.mpr ⟨f, hf, hfp⟩
  exact length_filter_lt_of_witness _ _ _ h1 c h2 (by simpa using hv) (by simp)

/-- The `while to_process:` loop of `find_all_dependencies`.  The three
Python sets `to_process`, `visited`, `all_files` become lists queried
by membership. -/
def depsLoop (fs : FS) (root_dir : FsPath) :
    List FsPath → List FsPath → List FsPath → List FsPath
  | [], _, all_files => all_files
  | current :: rest, visited, all_files =>
    if hv : current ∈ visited then
      depsLoop fs root_dir rest visited all_files
    else
      if hp : (fs.fileExists current && pathIsPy current) = true then
        let imports := (find_imports_in_file fs current).1
        let news := imports.flatMap (fun imp =>
          if imp ∈ rootSet then
            let module_dir := root_dir ++ [imp]
            if fs.dirExists module_dir then
              (rglobPy fs module_dir).filter (fun q => ¬ q ∈ current :: visited)
            else []
          else [])
        depsLoop fs root_dir (news ++ rest) (current :: visited)
          (current :: all_files)
      else
        depsLoop fs root_dir rest (current :: visited) all_files
  termination_by to_process visited _ => (unvisitedCount fs visited, to_process.length)
  decreasing_by
  · exact Prod.Lex.right _ (Nat.lt_succ_self _)
  · apply Prod.Lex.left
    have hex : fs.fileExists current = true := by
      rw [Bool.and_eq_true] at hp
      exact hp.1
    exact unvisitedCount_cons_lt fs visited current hex hv
  · rcases Nat.lt_or_eq_of_le (unvisitedCount_cons_le fs visited current) with h | h
    · exact Prod.Lex.left _ _ h
    · rw [h]
      exact Prod.Lex.right _ (Nat.lt_succ_self _)

/-- Models `find_all_dependencies`: the closure of the entry file. -/
def find_all_dependencies (fs : FS) (start_file : FsPath) (root_dir : FsPath) :
    List FsPath :=
  depsLoop fs root_dir [start_file] [] []

/-- The reachability relation the spec's Closure Builder guarantee
describes: the entry point is reachable; and from a reachable,
existing `.py` file whose imports contain a RootSet name whose module
directory exists, every `.py` file under that directory is reachable
(whole-directory inclusion, applied transitively).  References to
names outside `rootSet` generate no edges. -/
inductive Reach (fs : FS) (root_dir entry : FsPath) : FsPath → Prop
  | entry : Reach fs root_dir entry entry
  | step {p q : FsPath} {imp : String} :
      Reach fs root_dir entry p →
      fs.fileExists p = true →
      pathIsPy p = true →
      imp ∈ (find_imports_in_file fs p).1 →
      imp ∈ rootSet →
      fs.dirExists (root_dir ++ [imp]) = true →
      q ∈ rglobPy fs (root_dir ++ [imp]) →
      Reach fs root_dir entry q

/-- The property a path must have to be added to `all_files`. -/
def collectible (fs : FS) (root_dir entry p : FsPath) : Prop :=
  Reach fs root_dir entry p ∧ fs.fileExists p = true ∧ pathIsPy p = true

/-- The invariant `depsLoop` maintains over its three lists. -/
structure LoopInv (fs : FS) (root_dir entry : FsPath)
    (to_process visited all_files : List FsPath) : Prop where
  vis_reach : ∀ p ∈ visited, Reach fs root_dir entry p
  tp_reach : ∀ p ∈ to_process, Reach fs root_dir entry p
  af_sub : ∀ p ∈ all_files,
    p ∈ visited ∧ fs.fileExists p = true ∧ pathIsPy p = true
  vis_af : ∀ p ∈ visited,
    fs.fileExists p = true → pathIsPy p = true → p ∈ all_files
  closed : ∀ p ∈ visited, fs.fileExists p = true → pathIsPy p = true →
    ∀ imp q, imp ∈ (find_imports_in_file fs p).1 → imp ∈ rootSet →
      fs.dirExists (root_dir ++ [imp]) = true →
      q ∈ rglobPy fs (root_dir ++ [imp]) →
      q ∈ visited ∨ q ∈ to_process
  entry_in : entry ∈ visited ∨ entry ∈ to_process
  af_nodup : all_files.Nodup

/-- Core loop correctness: under the invariant, `depsLoop` returns a
duplicate-free list whose members are exactly the collectible paths. -/
theorem depsLoop_spec (fs : FS) (root_dir entry : FsPath) :
    ∀ to_process visited all_files,
      LoopInv fs root_dir entry to_process visited all_files →
      (∀ p, p ∈ depsLoop fs root_dir to_process visited all_files ↔
        collectible fs root_dir entry p) ∧
      (depsLoop fs root_dir to_process visited all_files).Nodup := by
  intro tp visited af
  induction tp, visited, af using depsLoop.induct fs root_dir with
  | case1 visited af =>
    intro hinv
    rw [depsLoop]
    have hvis : ∀ p, Reach fs root_dir entry p → p ∈ visited := by
      intro p hr
      induction hr with
      | entry =>
        rcases hinv.entry_in with h | h
        · exact h
        · cases h
      | step hr hex hpy himp hroot hdir hq ih =>
        rcases hinv.closed _ ih hex hpy _ _ himp hroot hdir hq with h | h
        · exact h
        · cases h
    refine ⟨fun p => ⟨fun hp => ?_, fun hp => ?_⟩, hinv.af_nodup⟩
    · obtain ⟨hv, hex, hpy⟩ := hinv.af_sub p hp
      exact ⟨hinv.vis_reach p hv, hex, hpy⟩
    · obtain ⟨hr, hex, hpy⟩ := hp
      exact hinv.vis_af p (hvis p hr) hex hpy
  | case2 current rest visited af hv ih =>
    intro hinv
    rw [depsLoop]
    simp only [dif_pos hv]
    apply ih
    exact {
      vis_reach := hinv.vis_reach
      tp_reach := fun p hp => hinv.tp_reach p (List.mem_cons_of_mem _ hp)
      af_sub := hinv.af_sub
      vis_af := hinv.vis_af
      closed := by
        intro p hp hex hpy imp q himp hroot hdir hq
        rcases hinv.closed p hp hex hpy imp q himp hroot hdir hq with h | h
        · exact Or.inl h
        · rcases List.mem_cons.mp h with rfl | h'
          · exact Or.inl hv
          · exact Or.inr h'
      entry_in := by
        rcases hinv.entry_in with h | h
        · exact Or.inl h
        · rcases List.mem_cons.mp h with rfl | h'
          · exact Or.inl hv
          · exact Or.inr h'
      af_nodup := hinv.af_nodup }
  | case3 current rest visited af hv hp imports news ih =>
    intro hinv
    rw [depsLoop]
    simp only [dif_neg hv, dif_pos hp]
    apply ih
    have hex : fs.fileExists current = true := by
      rw [Bool.and_eq_true] at hp; exact hp.1
    have hpy : pathIsPy current = true := by
      rw [Bool.and_eq_true] at hp; exact hp.2
    have hcur : Reach fs root_dir entry current :=
      hinv.tp_reach current (List.mem_cons_self _ _)
    refine {
      vis_reach := ?_, tp_reach := ?_, af_sub := ?_, vis_af := ?_,
      closed := ?_, entry_in := ?_, af_nodup := ?_ }
    · intro p hpm
      rcases List.mem_cons.mp hpm with rfl | h'
      · exact hcur
      · exact hinv.vis_reach p h'
    · intro p hpm
      rcases List.mem_append.mp hpm with h' | h'
      · -- p was just enqueued from some resolved module directory
        rw [List.mem_flatMap] at h'
        obtain ⟨imp, himp, hpin⟩ := h'
        by_cases hr : imp ∈ rootSet
        · simp only [dif_pos hr] at hpin
          by_cases hd : fs.dirExists (root_dir ++ [imp]) = true
          · simp only [dif_pos hd] at hpin
            have := List.mem_filter.mp hpin
            exact Reach.step hcur hex hpy himp hr hd this.1
          · simp only [dif_neg hd] at hpin
            cases hpin
        · simp only [dif_neg hr] at hpin
          cases hpin
      · exact hinv.tp_reach p (List.mem_cons_of_mem _ h')
    · intro p hpm
      rcases List.mem_cons.mp hpm with rfl | h'
      · exact ⟨List.mem_cons_self _ _, hex, hpy⟩
      · obtain ⟨h1, h2, h3⟩ := hinv.af_sub p h'
        exact ⟨List.mem_cons_of_mem _ h1, h2, h3⟩
    · intro p hpm hex' hpy'
      rcases List.mem_cons.mp hpm with rfl | h'
      · exact List.mem_cons_self _ _
      · exact List.mem_cons_of_mem _ (hinv.vis_af p h' hex' hpy')
    · intro p hpm hex' hpy' imp q himp hroot hdir hq
      rcases List.mem_cons.mp hpm with rfl | h'
      · by_cases hqv : q ∈ p :: visited
        · exact Or.inl hqv
        · refine Or.inr (List.mem_append.mpr (Or.inl ?_))
          rw [List.mem_flatMap]
          refine ⟨imp, himp, ?_⟩
          simp only [dif_pos hroot, dif_pos hdir]
          exact List.mem_filter.mpr ⟨hq, by simpa using hqv⟩
      · rcases hinv.closed p h' hex' hpy' imp q himp hroot hdir hq with h | h
        · exact Or.inl (List.mem_cons_of_mem _ h)
        · rcases List.mem_cons.mp h with rfl | h''
          · exact Or.inl (List.mem_cons_self _ _)
          · exact Or.inr (List.mem_append.mpr (Or.inr h''))
    · rcases hinv.entry_in with h | h
      · exact Or.inl (List.mem_cons_of_mem _ h)
      · rcases List.mem_cons.mp h with rfl | h'
        · exact Or.inl (List.mem_cons_self _ _)
        · exact Or.inr (List.mem_append.mpr (Or.inr h'))
    · refine List.Nodup.cons ?_ hinv.af_nodup
      intro hmem
      exact hv (hinv.af_sub current hmem).1
  | case4 current rest visited af hv hp ih =>
    intro hinv
    rw [depsLoop]
    simp only [dif_neg hv, dif_neg hp]
    apply ih
    have hnotboth : ¬ (fs.fileExists current = true ∧ pathIsPy current = true) := by
      intro ⟨h1, h2⟩
      exact hp (by rw [Bool.and_eq_true]; exact ⟨h1, h2⟩)
    refine {
      vis_reach := ?_, tp_reach := ?_, af_sub := ?_, vis_af := ?_,
      closed := ?_, entry_in := ?_, af_nodup := hinv.af_nodup }
    · intro p hpm
      rcases List.mem_cons.mp hpm with rfl | h'
      · exact hinv.tp_reach p (List.mem_cons_self _ _)
      · exact hinv.vis_reach p h'
    · intro p hpm
      exact hinv.tp_reach p (List.mem_cons_of_mem _ hpm)
    · intro p hpm
      obtain ⟨h1, h2, h3⟩ := hinv.af_sub p hpm
      exact ⟨List.mem_cons_of_mem _ h1, h2, h3⟩
    · intro p hpm hex' hpy'
      rcases List.mem_cons.mp hpm with rfl | h'
      · exact absurd ⟨hex', hpy'⟩ hnotboth
      · exact hinv.vis_af p h' hex' hpy'
    · intro p hpm hex' hpy' imp q himp hroot hdir hq
      rcases List.mem_cons.mp hpm with rfl | h'
      · exact absurd ⟨hex', hpy'⟩ hnotboth
      · rcases hinv.closed p h' hex' hpy' imp q himp hroot hdir hq with h | h
        · exact Or.inl (List.mem_cons_of_mem _ h)
        · rcases List.mem_cons.mp h with rfl | h''
          · exact Or.inl (List.mem_cons_self _ _)
          · exact Or.inr h''
    · rcases hinv.entry_in with h | h
      · exact Or.inl (List.mem_cons_of_mem _ h)
      · rcases List.mem_cons.mp h with rfl | h'
        · exact Or.inl (List.mem_cons_self _ _)
        · exact Or.inr h'

/-- The initial worklist state satisfies the invariant. -/
theorem loopInv_init (fs : FS) (root_dir entry : FsPath) :
    LoopInv fs root_dir entry [entry] [] [] := by
  constructor
  · intro p hp; cases hp
  · intro p hp
    rcases List.mem_cons.mp hp with rfl | h
    · exact Reach.entry
    · cases h
  · intro p hp; cases hp
  · intro p hp; cases hp
  · intro p hp; cases hp
  · exact Or.inr (List.mem_cons_self _ _)
  · exact List.nodup_nil

/-- Correctness of `find_all_dependencies`: it computes exactly the collectible paths,
without duplicates. -/
theorem find_all_dependencies_spec (fs : FS) (start_file root_dir : FsPath) :
    (∀ p, p ∈ find_all_dependencies fs start_file root_dir ↔
      collectible fs root_dir start_file p) ∧
    (find_all_dependencies fs start_file root_dir).Nodup :=
  depsLoop_spec fs root_dir start_file [start_file] [] []
    (loopInv_init fs root_dir start_file)

/-! ## The `main` routine: reporter and cleanup executor -/

/-- The constant `vendor_dir = Path("vendor/holopatcher_py")`. -/
def vendor_dir : FsPath := ["vendor", "holopatcher_py"]

/-- The constant `entry_point = vendor_dir / "holopatcher" / "__main__.py"`. -/
def entry_point : FsPath := vendor_dir ++ ["holopatcher", "__main__.py"]

/-- Models `f.stat().st_size` (only consulted on existing files). -/
def FS.statSize (fs : FS) (p : FsPath) : Nat :=
  match fs.lookup p with
  | some f => f.size
  | none => 0

/-- Models `sum(f.stat().st_size for f in l if f.exists())`. -/
def sumSizes (fs : FS) (l : List FsPath) : Nat :=
  ((l.filter (fun p => fs.fileExists p)).map (fun p => fs.statSize p)).sum

/-- Lines 92-100, the Set Reporter: removable byte total, total byte
total, and the removable percentage.  The MB conversions divide by
constants and cannot fail; `removable_size / total_size * 100` raises
`ZeroDivisionError` when `total_size` is `0`. -/
def sizeReport (fs : FS) (all_py_files required_files : List FsPath) :
    Except String (Nat × Nat × ℚ) :=
  let removable := all_py_files.filter (fun p => ¬ p ∈ required_files)
  let removable_size := sumSizes fs removable
  let total_size := sumSizes fs all_py_files
  if total_size = 0 then
    .error "ZeroDivisionError: division by zero"
  else
    .ok (removable_size, total_size,
      (removable_size : ℚ) / (total_size : ℚ) * 100)

/-- Models `file_path.unlink()`: removes the file, raising on a missing or
locked (permission-denied) path. -/
def FS.unlink (fs : FS) (p : FsPath) : Except String FS :=
  match fs.lookup p with
  | none => .error ("FileNotFoundError: " ++ String.intercalate "/" p)
  | some f =>
    if f.locked then .error ("PermissionError: " ++ String.intercalate "/" p)
    else .ok { fs with files := fs.files.filter (fun g => ¬ g.path = p) }

/-- Models `any(parent.iterdir())`: the directory has at least one immediate
child (file or directory). -/
def FS.hasEntries (fs : FS) (parent : FsPath) : Bool :=
  fs.files.any (fun f => decide (f.path ≠ [] ∧ f.path.dropLast = parent)) ||
  fs.dirs.any (fun d => decide (d ≠ [] ∧ d.dropLast = parent))

/-- Models `parent.rmdir()`. -/
def FS.rmdir (fs : FS) (d : FsPath) : FS :=
  { fs with dirs := fs.dirs.filter (fun e => ¬ e = d) }

/-- Models `shutil.rmtree`: the directory and everything beneath it
disappear. -/
def FS.rmtree (fs : FS) (d : FsPath) : FS :=
  { files := fs.files.filter (fun f => ¬ strictUnder d f.path = true),
    dirs := fs.dirs.filter (fun e => ¬ (e = d ∨ strictUnder d e = true)) }

/-- Lines 127-136: `while parent != vendor_dir and parent.exists():`
remove the directory if it has no entries and climb to its parent,
else stop.  The walk climbs one segment per step, so a fuel of the
starting path's length covers every iteration the Python loop can
make; directory operations are modelled as infallible, so the `except`
arm of the source (which silently breaks) is unreachable here. -/
def pruneParents (fs : FS) (vendor : FsPath) : FsPath → Nat → FS
  | _, 0 => fs
  | parent, fuel + 1 =>
    if parent = vendor then fs
    else if ¬ fs.dirExists parent then fs
    else if fs.hasEntries parent then fs
    else pruneParents (fs.rmdir parent) vendor parent.dropLast fuel

/-- Lines 118-138: `for file_path in sorted(removable)`.  The unlink is
not wrapped in any handler, so its failure ends the loop with the
exception; the state, the count so far, and the error are returned. -/
def removeLoop (fs : FS) (vendor : FsPath) :
    List FsPath → Nat → FS × Nat × Option String
  | [], n => (fs, n, none)
  | p :: rest, n =>
    match fs.unlink p with
    | .error e => (fs, n, some e)
    | .ok fs1 =>
      removeLoop (pruneParents fs1 vendor p.dropLast p.length) vendor rest (n + 1)

/-- The `unused_dirs` constant of `main`, relative to `vendor_dir`. -/
def unused_dirs : List FsPath :=
  [["utility", "gui", "qt"],
   ["utility", "ui_libraries"],
   ["pykotor", "resource", "formats", "tpc", "convert"],
   ["pykotor", "resource", "formats", "mdl"]]

/-- Lines 110-116: remove each listed subtree that exists. -/
def removeUnusedDirs (fs : FS) (vendor : FsPath) : FS :=
  unused_dirs.foldl
    (fun acc dn =>
      let dir_path := vendor ++ dn
      if acc.dirExists dir_path then acc.rmtree dir_path else acc)
    fs

/-- Python path ordering for `sorted(removable)`: compare the joined
path strings. -/
def pathLe (a b : FsPath) : Bool :=
  decide (String.intercalate "/" a ≤ String.intercalate "/" b)

def insertSorted (p : FsPath) : List FsPath → List FsPath
  | [] => [p]
  | q :: rest => if pathLe p q then p :: q :: rest else q :: insertSorted p rest

/-- Insertion sort modelling `sorted(removable)`. -/
def sortPaths : List FsPath → List FsPath
  | [] => []
  | p :: rest => insertSorted p (sortPaths rest)

/-- The artifact patterns of lines 141-149. -/
def artifactPatterns : List String :=
  ["*.pyi", "*.pyc", "*.pyo", "__pycache__", "*.out", "tests"]

/-- Match of a name against one of the six artifact patterns:
`*.X` matches a name ending in `.X`, a bare name matches exactly. -/
def matchPattern (pat name : String) : Bool :=
  match pat.data with
  | '*' :: '.' :: restPat => strEndsWith name (String.mk ('.' :: restPat))
  | _ => name = pat

/-- Models `vendor_dir.rglob(pattern)`: matching files, then matching
directories, beneath the root. -/
def rglobAll (fs : FS) (d : FsPath) (pat : String) : List FsPath :=
  (fs.files.filter (fun f =>
    strictUnder d f.path && matchPattern pat (f.path.getLastD ""))).map
      (fun f => f.path) ++
  fs.dirs.filter (fun e => strictUnder d e && matchPattern pat (e.getLastD ""))

/-- Lines 143-149: for one pattern's matches, unlink files (raising
on a locked one), `rmtree` directories, and silently skip anything
already gone. -/
def sweepItems (fs : FS) : List FsPath → FS × Option String
  | [] => (fs, none)
  | p :: rest =>
    if fs.fileExists p then
      match fs.unlink p with
      | .error e => (fs, some e)
      | .ok fs1 => sweepItems fs1 rest
    else if fs.dirExists p then sweepItems (fs.rmtree p) rest
    else sweepItems fs rest

/-- Lines 141-149: sweep every artifact pattern in order, aborting on
the first escaping exception. -/
def artifactSweep (fs : FS) (vendor : FsPath) : FS × Option String :=
  artifactPatterns.foldl
    (fun acc pat =>
      match acc with
      | (cur, some e) => (cur, some e)
      | (cur, none) => sweepItems cur (rglobAll cur vendor pat))
    (fs, none)

/-- The set `required_files = find_all_dependencies(entry_point, vendor_dir)`,
the ReachabilitySet of `main`. -/
def required_files (fs : FS) : List FsPath :=
  find_all_dependencies fs entry_point vendor_dir

/-- The set `all_py_files = set(vendor_dir.rglob("*.py"))`, the Inventory. -/
def all_py_files (fs : FS) : List FsPath :=
  rglobPy fs vendor_dir

/-- The set `removable = all_py_files - required_files`, the RemovableSet. -/
def removable (fs : FS) : List FsPath :=
  (all_py_files fs).filter (fun p => ¬ p ∈ required_files fs)

/-- Models `main()`: the final filesystem together with either the returned
exit code or the exception that escaped (the interpreter then exits
non-zero).  The final-summary prints of lines 151-156 divide by
`total_size`, which is non-zero whenever they are reached, and are
otherwise pure. -/
def main_run (fs : FS) : FS × Except String Int :=
  if ¬ fs.dirExists vendor_dir then (fs, .ok 1)
  else if ¬ fs.fileExists entry_point then (fs, .ok 1)
  else
    match sizeReport fs (all_py_files fs) (required_files fs) with
    | .error e => (fs, .error e)
    | .ok _ =>
      let fs1 := removeUnusedDirs fs vendor_dir
      match removeLoop fs1 vendor_dir (sortPaths (removable fs)) 0 with
      | (fs2, _, some e) => (fs2, .error e)
      | (fs2, _, none) =>
        match artifactSweep fs2 vendor_dir with
        | (fs3, some e) => (fs3, .error e)
        | (fs3, none) => (fs3, .ok 0)

/-! ## Helper lemmas -/

theorem mem_rglobPy {fs : FS} {d p : FsPath} :
    p ∈ rglobPy fs d ↔
    ∃ f ∈ fs.files, f.path = p ∧ strictUnder d p = true ∧
      globPy (p.getLastD "") = true := by
  simp only [rglobPy, List.mem_map, List.mem_filter]
  constructor
  · rintro ⟨f, ⟨hf, hcond⟩, rfl⟩
    rw [Bool.and_eq_true] at hcond
    exact ⟨f, hf, rfl, hcond.1, hcond.2⟩
  · rintro ⟨f, hf, rfl, h1, h2⟩
    exact ⟨f, ⟨hf, by rw [Bool.and_eq_true]; exact ⟨h1, h2⟩⟩, rfl⟩

theorem strictUnder_of_append {d : FsPath} {x : String} {q : FsPath}
    (h : strictUnder (d ++ [x]) q = true) : strictUnder d q = true := by
  simp only [strictUnder, Bool.and_eq_true, decide_eq_true_eq] at *
  obtain ⟨h1, h2⟩ := h
  rw [List.isPrefixOf_iff_prefix] at *
  refine ⟨(List.prefix_append d [x]).trans h1, ?_⟩
  simp only [List.length_append, List.length_singleton] at h2
  omega

/-- Every path reachable from an entry strictly under `root` is itself
strictly under `root`. -/
theorem reach_strictUnder {fs : FS} {root e p : FsPath}
    (he : strictUnder root e = true) (h : Reach fs root e p) :
    strictUnder root p = true := by
  induction h with
  | entry => exact he
  | step _ _ _ _ _ _ hq ih =>
    obtain ⟨f, _, hfp, h1, _⟩ := mem_rglobPy.mp hq
    subst hfp
    exact strictUnder_of_append h1

theorem globPy_of_pathIsPy {p : FsPath} (h : pathIsPy p = true) :
    globPy (p.getLastD "") = true := by
  unfold pathIsPy at h
  cases hl : p.getLast? with
  | none => rw [hl] at h; cases h
  | some s =>
    rw [hl] at h
    unfold isPyName at h
    rw [Bool.and_eq_true] at h
    have hd : p.getLastD "" = s := by
      rw [List.getLastD_eq_getLast?, hl]
      rfl
    rw [hd]
    exact h.1

theorem fileExists_iff {fs : FS} {p : FsPath} :
    fs.fileExists p = true ↔ ∃ f ∈ fs.files, f.path = p := by
  simp [FS.fileExists]

/-! ## Concrete snapshots -/

/-- The spec's concrete scenario for the closure builder, using the
first-party root `loggerplus` in the role of `libfoo`: the entry
file imports it, its `__init__` imports nothing, and `helper` is
never imported anywhere. -/
def fsScenario : FS :=
  { files := [
      { path := ["app", "main.py"], stmts := some [.imp ["loggerplus"]],
        size := 10, locked := false },
      { path := ["loggerplus", "__init__.py"], stmts := some [],
        size := 5, locked := false },
      { path := ["loggerplus", "helper.py"], stmts := some [],
        size := 7, locked := false }],
    dirs := [["app"], ["loggerplus"]] }

/-- A synthetic import cycle: `holopatcher/a.py` imports the root
`utility`, whose `b.py` imports the root `holopatcher` back. -/
def fsCycle : FS :=
  { files := [
      { path := ["holopatcher", "a.py"], stmts := some [.imp ["utility"]],
        size := 1, locked := false },
      { path := ["utility", "b.py"], stmts := some [.fromImp (some "holopatcher")],
        size := 2, locked := false }],
    dirs := [["holopatcher"], ["utility"]] }

/-! ## Claims -/

/-- C1: for every snapshot, entry file and root directory, the Closure
Builder's result is exactly the set of existing `.py` files reachable
from the entry point by following static imports, where importing any
RootSet name pulls in every `.py` file under that root module's
directory transitively (`Reach`), names outside the RootSet add no
files, and each file appears at most once. -/
theorem claim_C1_closure_exact (fs : FS) (start_file root_dir : FsPath) :
    (∀ p, p ∈ find_all_dependencies fs start_file root_dir ↔
      (Reach fs root_dir start_file p ∧ fs.fileExists p = true ∧
        pathIsPy p = true)) ∧
    (find_all_dependencies fs start_file root_dir).Nodup := by
  obtain ⟨h1, h2⟩ := find_all_dependencies_spec fs start_file root_dir
  exact ⟨fun p => (h1 p).trans Iff.rfl, h2⟩

/-- C2 counterexample: in the spec's own scenario the never-imported
`helper` file IS in the ReachabilitySet (whole-directory inclusion
pulls it in) and is NOT in the RemovableSet, so the claimed
ReachabilitySet `{entry, libfoo/__init__}` is wrong. -/
theorem claim_C2_counterexample :
    ["loggerplus", "helper.py"] ∈
      find_all_dependencies fsScenario ["app", "main.py"] [] ∧
    ¬ ["loggerplus", "helper.py"] ∈
      (rglobPy fsScenario []).filter
        (fun p => ¬ p ∈ find_all_dependencies fsScenario ["app", "main.py"] []) := by
  constructor
  · simp +decide [find_all_dependencies, depsLoop, fsScenario, FS.fileExists,
      FS.dirExists, FS.lookup, pathIsPy, isPyName, strEndsWith, globPy,
      strictUnder, rglobPy, topName, takeUntilDot, stmtNames,
      find_imports_in_file, rootSet]
  · simp +decide [find_all_dependencies, depsLoop, fsScenario, FS.fileExists,
      FS.dirExists, FS.lookup, pathIsPy, isPyName, strEndsWith, globPy,
      strictUnder, rglobPy, topName, takeUntilDot, stmtNames,
      find_imports_in_file, rootSet]

/-- C2 amended: in the scenario the ReachabilitySet is exactly
`{entry, libfoo/__init__, libfoo/helper}` — importing the root pulls in
every `.py` file under its directory, so the never-imported `helper` is
reached as well — and the RemovableSet is empty. -/
theorem claim_C2_amended :
    find_all_dependencies fsScenario ["app", "main.py"] [] =
      [["loggerplus", "helper.py"], ["loggerplus", "__init__.py"],
       ["app", "main.py"]] ∧
    (rglobPy fsScenario []).filter
      (fun p => ¬ p ∈ find_all_dependencies fsScenario ["app", "main.py"] []) =
      [] := by
  constructor
  · simp +decide [find_all_dependencies, depsLoop, fsScenario, FS.fileExists,
      FS.dirExists, FS.lookup, pathIsPy, isPyName, strEndsWith, globPy,
      strictUnder, rglobPy, topName, takeUntilDot, stmtNames,
      find_imports_in_file, rootSet]
  · simp +decide [find_all_dependencies, depsLoop, fsScenario, FS.fileExists,
      FS.dirExists, FS.lookup, pathIsPy, isPyName, strEndsWith, globPy,
      strictUnder, rglobPy, topName, takeUntilDot, stmtNames,
      find_imports_in_file, rootSet]

/-- C4: the traversal is total (it is a well-founded Lean function), no
file appears twice in any result, and in the synthetic two-file import
cycle each of the two files appears exactly once. -/
theorem claim_C4_cycle_terminates :
    (∀ (fs : FS) (start_file root_dir : FsPath),
      (find_all_dependencies fs start_file root_dir).Nodup) ∧
    (find_all_dependencies fsCycle ["holopatcher", "a.py"] []).count
      ["holopatcher", "a.py"] = 1 ∧
    (find_all_dependencies fsCycle ["holopatcher", "a.py"] []).count
      ["utility", "b.py"] = 1 := by
  refine ⟨fun fs s r => (find_all_dependencies_spec fs s r).2, ?_, ?_⟩
  · simp +decide [find_all_dependencies, depsLoop, fsCycle, FS.fileExists,
      FS.dirExists, FS.lookup, pathIsPy, isPyName, strEndsWith, globPy,
      strictUnder, rglobPy, topName, takeUntilDot, stmtNames,
      find_imports_in_file, rootSet, List.count_cons]
  · simp +decide [find_all_dependencies, depsLoop, fsCycle, FS.fileExists,
      FS.dirExists, FS.lookup, pathIsPy, isPyName, strEndsWith, globPy,
      strictUnder, rglobPy, topName, takeUntilDot, stmtNames,
      find_imports_in_file, rootSet, List.count_cons]

/-- C3: the ReachabilitySet computed by `main` is contained in the
Inventory, and the RemovableSet is the Inventory minus the
ReachabilitySet: the two are disjoint and jointly cover the
Inventory. -/
theorem claim_C3_partition (fs : FS) (p : FsPath) :
    (p ∈ required_files fs → p ∈ all_py_files fs) ∧
    (p ∈ removable fs ↔ p ∈ all_py_files fs ∧ ¬ p ∈ required_files fs) ∧
    ¬ (p ∈ removable fs ∧ p ∈ required_files fs) ∧
    (p ∈ all_py_files fs → p ∈ required_files fs ∨ p ∈ removable fs) := by
  have hreq : ∀ q, q ∈ required_files fs ↔
      collectible fs vendor_dir entry_point q :=
    (find_all_dependencies_spec fs entry_point vendor_dir).1
  have hsub : ∀ q, q ∈ required_files fs → q ∈ all_py_files fs := by
    intro q hq
    obtain ⟨hr, hex, hpy⟩ := (hreq q).mp hq
    obtain ⟨f, hf, hfp⟩ := fileExists_iff.mp hex
    refine mem_rglobPy.mpr ⟨f, hf, hfp, ?_, globPy_of_pathIsPy hpy⟩
    exact reach_strictUnder (by decide) hr
  have hrem : ∀ q, q ∈ removable fs ↔
      q ∈ all_py_files fs ∧ ¬ q ∈ required_files fs := by
    intro q
    simp [removable, List.mem_filter]
  refine ⟨hsub p, hrem p, ?_, ?_⟩
  · rintro ⟨h1, h2⟩
    exact ((hrem p).mp h1).2 h2
  · intro h
    by_cases hq : p ∈ required_files fs
    · exact Or.inl hq
    · exact Or.inr ((hrem p).mpr ⟨h, hq⟩)

/-- A vendor snapshot whose entry point imports nothing. -/
def fsC3 : FS :=
  { files := [{ path := entry_point, stmts := some [], size := 3,
                locked := false }],
    dirs := [["vendor"], vendor_dir, vendor_dir ++ ["holopatcher"]] }

theorem claim_C3_partition_witness :
    entry_point ∈ required_files fsC3 ∧ entry_point ∈ all_py_files fsC3 := by
  have h : entry_point ∈ required_files fsC3 := by
    simp +decide [required_files, find_all_dependencies, depsLoop, fsC3,
      FS.fileExists, FS.dirExists, FS.lookup, pathIsPy, isPyName, strEndsWith,
      globPy, strictUnder, rglobPy, topName, takeUntilDot, stmtNames,
      find_imports_in_file, rootSet, vendor_dir, entry_point]
  exact ⟨h, (claim_C3_partition fsC3 entry_point).1 h⟩

/-- A removable batch whose first file is permission-locked. -/
def fsLock : FS :=
  { files := [
      { path := vendor_dir ++ ["pykotor", "locked.py"], stmts := some [],
        size := 5, locked := true },
      { path := vendor_dir ++ ["pykotor", "x.py"], stmts := some [],
        size := 6, locked := false }],
    dirs := [["vendor"], vendor_dir, vendor_dir ++ ["pykotor"]] }

/-- C5 counterexample: a locked file makes the whole cleanup batch stop
with the exception — the loop returns the error, the count stays at 0,
and the second, perfectly deletable file is still present, contradicting
"catches the failure, skips that file, and continues". -/
theorem claim_C5_counterexample :
    removeLoop fsLock vendor_dir
      [vendor_dir ++ ["pykotor", "locked.py"],
       vendor_dir ++ ["pykotor", "x.py"]] 0 =
      (fsLock, 0,
        some "PermissionError: vendor/holopatcher_py/pykotor/locked.py") ∧
    fsLock.fileExists (vendor_dir ++ ["pykotor", "x.py"]) = true := by
  constructor
  · simp +decide [removeLoop, FS.unlink, FS.lookup, fsLock, vendor_dir]
  · simp +decide [FS.fileExists, fsLock, vendor_dir]

/-- C5 amended: the per-file `unlink` is not wrapped in any handler, so
its failure aborts the batch at once: the loop returns with the
exception, the filesystem state and count unchanged by that iteration,
and every remaining file untouched (only the empty-directory pruning
walk has a silent `except`). -/
theorem claim_C5_amended (fs : FS) (vendor p : FsPath) (rest : List FsPath)
    (n : Nat) (f : PyFile) (hf : fs.lookup p = some f) (hl : f.locked = true) :
    removeLoop fs vendor (p :: rest) n =
      (fs, n, some ("PermissionError: " ++ String.intercalate "/" p)) := by
  simp [removeLoop, FS.unlink, hf, hl]

theorem claim_C5_amended_witness :
    removeLoop fsLock vendor_dir [vendor_dir ++ ["pykotor", "locked.py"]] 0 =
      (fsLock, 0,
        some "PermissionError: vendor/holopatcher_py/pykotor/locked.py") := by
  have h := claim_C5_amended fsLock vendor_dir
    (vendor_dir ++ ["pykotor", "locked.py"]) [] 0
    { path := vendor_dir ++ ["pykotor", "locked.py"], stmts := some [],
      size := 5, locked := true }
    (by simp +decide [FS.lookup, fsLock, vendor_dir]) rfl
  rw [h]
  simp +decide [vendor_dir]

/-- The pointwise file rewrite of `patchParsed`. -/
def patchFn (p : FsPath) (g : PyFile) : PyFile :=
  if g.path = p then { g with stmts := some [] } else g

/-- The same snapshot with the file at `p` replaced by one that parses
and imports nothing. -/
def patchParsed (fs : FS) (p : FsPath) : FS :=
  { fs with files := fs.files.map (patchFn p) }

theorem patchFn_path (p : FsPath) (g : PyFile) : (patchFn p g).path = g.path := by
  unfold patchFn
  split <;> rfl

theorem patchParsed_fileExists (fs : FS) (p q : FsPath) :
    (patchParsed fs p).fileExists q = fs.fileExists q := by
  simp [FS.fileExists, patchParsed, List.any_map, Function.comp_def, patchFn_path]

theorem patchParsed_rglobPy (fs : FS) (p : FsPath) (d : FsPath) :
    rglobPy (patchParsed fs p) d = rglobPy fs d := by
  simp only [rglobPy, patchParsed]
  induction fs.files with
  | nil => rfl
  | cons f l ih =>
    simp only [List.map_cons, List.filter_cons, patchFn_path]
    by_cases hc : (strictUnder d f.path && globPy (f.path.getLastD "")) = true
    · rw [if_pos hc, if_pos hc, List.map_cons, List.map_cons, patchFn_path, ih]
    · rw [if_neg hc, if_neg hc, ih]

theorem patchParsed_lookup (fs : FS) (p q : FsPath) :
    (patchParsed fs p).lookup q = (fs.lookup q).map (patchFn p) := by
  simp only [FS.lookup, patchParsed]
  induction fs.files with
  | nil => rfl
  | cons f l ih =>
    simp only [List.map_cons, List.find?_cons, patchFn_path]
    by_cases hc : f.path = q
    · simp [hc]
    · simp [hc, ih]

theorem patchParsed_imports_fst (fs : FS) (p : FsPath) (f0 : PyFile)
    (hf : fs.lookup p = some f0) (h0 : f0.stmts = none) (q : FsPath) :
    (find_imports_in_file (patchParsed fs p) q).1 =
      (find_imports_in_file fs q).1 := by
  unfold find_imports_in_file
  rw [patchParsed_lookup]
  cases hq : fs.lookup q with
  | none => rfl
  | some f =>
    simp only [Option.map_some']
    unfold patchFn
    by_cases hfp : f.path = p
    · have hfq : f.path = q := by
        have := List.find?_some hq
        simpa using this
      have hpq : p = q := by rw [← hfp, hfq]
      subst hpq
      rw [hq] at hf
      cases hf
      rw [if_pos hfp, h0]
      simp
    · rw [if_neg hfp]

/-- Congruence: `depsLoop` only consults the snapshot through the import extractor,
file existence, directory existence, and the recursive glob: two
snapshots agreeing on those agree on every run of the loop. -/
theorem depsLoop_congr (fs fs' : FS) (root_dir : FsPath)
    (himp : ∀ q, (find_imports_in_file fs' q).1 = (find_imports_in_file fs q).1)
    (hex : ∀ q, fs'.fileExists q = fs.fileExists q)
    (hdir : ∀ d, fs'.dirExists d = fs.dirExists d)
    (hrg : ∀ d, rglobPy fs' d = rglobPy fs d) :
    ∀ tp visited af,
      depsLoop fs' root_dir tp visited af = depsLoop fs root_dir tp visited af := by
  intro tp visited af
  induction tp, visited, af using depsLoop.induct fs' root_dir with
  | case1 v a => rw [depsLoop, depsLoop]
  | case2 current rest v a hv ih =>
    rw [depsLoop, depsLoop]
    simp only [dif_pos hv]
    exact ih
  | case3 current rest v a hv hp imports news ih =>
    have hp2 : (fs.fileExists current && pathIsPy current) = true := by
      rw [← hex]; exact hp
    rw [depsLoop, depsLoop]
    simp only [dif_neg hv, dif_pos hp, dif_pos hp2]
    simp only [← himp, ← hdir, ← hrg]
    exact ih
  | case4 current rest v a hv hp ih =>
    have hp2 : ¬ (fs.fileExists current && pathIsPy current) = true := by
      rw [← hex]; exact hp
    rw [depsLoop, depsLoop]
    simp only [dif_neg hv, dif_neg hp, dif_neg hp2]
    exact ih

/-- C6: a file whose text fails to parse contributes a warning and an
empty reference set — the extractor does not raise — and the closure
computed over the snapshot is identical to the closure where that file
parses but imports nothing, so every file's membership is unaffected. -/
theorem claim_C6_parse_failure (fs : FS) (p : FsPath) (f : PyFile)
    (hf : fs.lookup p = some f) (h0 : f.stmts = none) :
    (find_imports_in_file fs p).1 = [] ∧
    (find_imports_in_file fs p).2 ≠ [] ∧
    ∀ entry root_dir,
      find_all_dependencies (patchParsed fs p) entry root_dir =
        find_all_dependencies fs entry root_dir := by
  refine ⟨?_, ?_, ?_⟩
  · unfold find_imports_in_file
    rw [hf]
    simp [h0]
  · unfold find_imports_in_file
    rw [hf]
    simp [h0]
  · intro entry root_dir
    unfold find_all_dependencies
    exact depsLoop_congr fs (patchParsed fs p) root_dir
      (patchParsed_imports_fst fs p f hf h0) (patchParsed_fileExists fs p)
      (fun _ => rfl) (patchParsed_rglobPy fs p) _ _ _

/-- A snapshot containing one malformed source file. -/
def fsBad : FS :=
  { files := [{ path := ["holopatcher", "bad.py"], stmts := none, size := 9,
                locked := false }],
    dirs := [["holopatcher"]] }

theorem claim_C6_parse_failure_witness :
    (find_imports_in_file fsBad ["holopatcher", "bad.py"]).1 = [] ∧
    find_all_dependencies (patchParsed fsBad ["holopatcher", "bad.py"])
        ["app", "run.py"] [] =
      find_all_dependencies fsBad ["app", "run.py"] [] := by
  have h := claim_C6_parse_failure fsBad ["holopatcher", "bad.py"]
    { path := ["holopatcher", "bad.py"], stmts := none, size := 9,
      locked := false }
    (by simp +decide [FS.lookup, fsBad]) rfl
  exact ⟨h.1, h.2.2 ["app", "run.py"] []⟩

theorem sumSizes_append (fs : FS) (a b : List FsPath) :
    sumSizes fs (a ++ b) = sumSizes fs a + sumSizes fs b := by
  simp [sumSizes, List.filter_append]

/-- An inventory whose only file holds zero bytes. -/
def fsZeroReport : FS :=
  { files := [{ path := ["m.py"], stmts := some [], size := 0,
                locked := false }],
    dirs := [] }

/-- C8 counterexample: with a zero-byte inventory the reporter's
percentage computation divides by zero and the report fails, so the
computation is not error-free. -/
theorem claim_C8_counterexample :
    sizeReport fsZeroReport [["m.py"]] [] =
      .error "ZeroDivisionError: division by zero" := by
  simp +decide [sizeReport, sumSizes, FS.statSize, FS.lookup, FS.fileExists,
    fsZeroReport]

/-- C8 amended: the reporter is pure and total except when the
inventory's total byte size is zero, where the removable-percentage
division raises ZeroDivisionError; a missing file contributes zero
bytes, so appending a missing path changes nothing. -/
theorem claim_C8_amended (fs : FS) (all_py required : List FsPath) :
    (sumSizes fs all_py ≠ 0 →
      ∃ pct, sizeReport fs all_py required =
        .ok (sumSizes fs (all_py.filter (fun p => ¬ p ∈ required)),
             sumSizes fs all_py, pct)) ∧
    (sumSizes fs all_py = 0 →
      sizeReport fs all_py required =
        .error "ZeroDivisionError: division by zero") ∧
    (∀ q, fs.fileExists q = false →
      sizeReport fs (all_py ++ [q]) required =
        sizeReport fs all_py required) := by
  refine ⟨?_, ?_, ?_⟩
  · intro h
    refine ⟨(sumSizes fs (all_py.filter (fun p => ¬ p ∈ required)) : ℚ) /
      (sumSizes fs all_py : ℚ) * 100, ?_⟩
    simp only [sizeReport]
    rw [if_neg h]
  · intro h
    simp only [sizeReport]
    rw [if_pos h]
  · intro q hq
    have hs : ∀ l, sumSizes fs (l ++ [q]) = sumSizes fs l := by
      intro l
      rw [sumSizes_append]
      simp [sumSizes, hq]
    have hrem : sumSizes fs ((all_py ++ [q]).filter (fun p => ¬ p ∈ required)) =
        sumSizes fs (all_py.filter (fun p => ¬ p ∈ required)) := by
      rw [List.filter_append]
      by_cases hm : q ∈ required
      · simp [hm]
      · have : List.filter (fun p => ¬ p ∈ required) [q] = [q] := by
          simp [hm]
        rw [this]
        exact hs _
    simp only [sizeReport]
    rw [hrem, hs]

/-- A one-file inventory of five bytes. -/
def fsReport : FS :=
  { files := [{ path := ["n.py"], stmts := some [], size := 5,
                locked := false }],
    dirs := [] }

theorem claim_C8_amended_witness :
    ∃ r, sizeReport fsReport [["n.py"]] [] = Except.ok r := by
  obtain ⟨pct, h⟩ := (claim_C8_amended fsReport [["n.py"]] []).1
    (by simp +decide [sumSizes, FS.statSize, FS.lookup, FS.fileExists, fsReport])
  exact ⟨_, h⟩

theorem unlink_ok_parts {fs fs' : FS} {p : FsPath} (h : fs.unlink p = .ok fs') :
    fs'.dirs = fs.dirs ∧
    fs'.files = fs.files.filter (fun g => ¬ g.path = p) := by
  unfold FS.unlink at h
  cases hl : fs.lookup p with
  | none => rw [hl] at h; cases h
  | some f =>
    rw [hl] at h
    by_cases hlk : f.locked = true
    · simp [hlk] at h
    · simp [hlk] at h
      subst h
      refine ⟨rfl, ?_⟩
      simp

theorem pruneParents_files (vendor : FsPath) :
    ∀ (fuel : Nat) (fs : FS) (parent : FsPath),
      (pruneParents fs vendor parent fuel).files = fs.files := by
  intro fuel
  induction fuel with
  | zero => intro fs parent; rfl
  | succ n ih =>
    intro fs parent
    rw [pruneParents]
    split
    · rfl
    · split
      · rfl
      · split
        · rfl
        · rw [ih, FS.rmdir]

theorem pruneParents_keeps_vendor (vendor : FsPath) :
    ∀ (fuel : Nat) (fs : FS) (parent : FsPath),
      vendor ∈ fs.dirs → vendor ∈ (pruneParents fs vendor parent fuel).dirs := by
  intro fuel
  induction fuel with
  | zero => intro fs parent h; exact h
  | succ n ih =>
    intro fs parent h
    rw [pruneParents]
    split
    · exact h
    · split
      · exact h
      · split
        · exact h
        · rename_i h1 _ _
          apply ih
          simp only [FS.rmdir, List.mem_filter, decide_eq_true_eq]
          exact ⟨h, fun he => h1 (he ▸ rfl)⟩

theorem pruneParents_keeps_occupied (vendor d q : FsPath)
    (hdl : q.dropLast = d) (hq : q ≠ []) :
    ∀ (fuel : Nat) (fs : FS) (parent : FsPath),
      d ∈ fs.dirs → (∃ f ∈ fs.files, f.path = q) →
      d ∈ (pruneParents fs vendor parent fuel).dirs := by
  intro fuel
  induction fuel with
  | zero => intro fs parent hd _; exact hd
  | succ n ih =>
    intro fs parent hd hwit
    rw [pruneParents]
    split
    · exact hd
    · split
      · exact hd
      · split
        · exact hd
        · rename_i h1 h2 h3
          have hpd : parent ≠ d := by
            intro he
            subst he
            apply h3
            simp only [FS.hasEntries, Bool.or_eq_true, List.any_eq_true,
              decide_eq_true_eq]
            obtain ⟨f, hf, hfq⟩ := hwit
            exact Or.inl ⟨f, hf, by rw [hfq]; exact ⟨hq, hdl⟩⟩
          apply ih
          · simp only [FS.rmdir, List.mem_filter, decide_eq_true_eq]
            exact ⟨hd, fun he => hpd (he ▸ rfl)⟩
          · exact hwit

/-- C10: the pruning walk stops strictly below the vendored root: for
every snapshot, batch, and starting count, the vendored root directory
survives the cleanup loop, even when everything beneath it is
removed. -/
theorem claim_C10_vendor_survives (fs : FS) (vendor : FsPath)
    (L : List FsPath) (n : Nat) (h : vendor ∈ fs.dirs) :
    vendor ∈ (removeLoop fs vendor L n).1.dirs := by
  induction L generalizing fs n with
  | nil => exact h
  | cons p rest ih =>
    rw [removeLoop]
    cases hu : fs.unlink p with
    | error e => exact h
    | ok fs1 =>
      apply ih
      apply pruneParents_keeps_vendor
      rw [(unlink_ok_parts hu).1]
      exact h

/-- A snapshot for the witness of the vendored-root survival claim. -/
def fsC10 : FS :=
  { files := [{ path := vendor_dir ++ ["only.py"], stmts := some [],
                size := 2, locked := false }],
    dirs := [["vendor"], vendor_dir] }

theorem claim_C10_vendor_survives_witness :
    vendor_dir ∈
      (removeLoop fsC10 vendor_dir [vendor_dir ++ ["only.py"]] 0).1.dirs :=
  claim_C10_vendor_survives fsC10 vendor_dir [vendor_dir ++ ["only.py"]] 0
    (by simp +decide [fsC10, vendor_dir])

/-- A directory that keeps at least one file never scheduled for
deletion survives the whole cleanup loop: the pruning walk removes only
directories with no remaining entries. -/
theorem removeLoop_keeps_occupied (vendor d q : FsPath)
    (hdl : q.dropLast = d) (hq : q ≠ []) :
    ∀ (L : List FsPath) (fs : FS) (n : Nat),
      d ∈ fs.dirs → (∃ f ∈ fs.files, f.path = q) → ¬ q ∈ L →
      d ∈ (removeLoop fs vendor L n).1.dirs ∧
      (removeLoop fs vendor L n).1.fileExists q = true := by
  intro L
  induction L with
  | nil =>
    intro fs n hd hwit _
    exact ⟨hd, fileExists_iff.mpr hwit⟩
  | cons p rest ih =>
    intro fs n hd hwit hnL
    have hqp : q ≠ p := fun he => hnL (he ▸ List.mem_cons_self _ _)
    rw [removeLoop]
    cases hu : fs.unlink p with
    | error e =>
      exact ⟨hd, fileExists_iff.mpr hwit⟩
    | ok fs1 =>
      obtain ⟨hd1, hf1⟩ := unlink_ok_parts hu
      obtain ⟨f, hf, hfq⟩ := hwit
      have hwit1 : ∃ g ∈ fs1.files, g.path = q := by
        refine ⟨f, ?_, hfq⟩
        rw [hf1]
        apply List.mem_filter.mpr
        refine ⟨hf, ?_⟩
        simp [hfq, hqp]
      have hd1' : d ∈ fs1.dirs := by rw [hd1]; exact hd
      have hdp : d ∈ (pruneParents fs1 vendor p.dropLast p.length).dirs :=
        pruneParents_keeps_occupied vendor d q hdl hq _ fs1 _ hd1' hwit1
      have hwitp : ∃ g ∈ (pruneParents fs1 vendor p.dropLast p.length).files,
          g.path = q := by
        rw [pruneParents_files]
        exact hwit1
      exact ih _ _ hdp hwitp (fun hmem => hnL (List.mem_cons_of_mem _ hmem))

/-- A vendor tree with a required file under `holopatcher` and a
directory `pykotor/gone` containing only removable files. -/
def fs9 : FS :=
  { files := [
      { path := vendor_dir ++ ["holopatcher", "__main__.py"],
        stmts := some [], size := 3, locked := false },
      { path := vendor_dir ++ ["pykotor", "gone", "a.py"],
        stmts := some [], size := 4, locked := false },
      { path := vendor_dir ++ ["pykotor", "gone", "b.py"],
        stmts := some [], size := 5, locked := false }],
    dirs := [["vendor"], vendor_dir, vendor_dir ++ ["holopatcher"],
             vendor_dir ++ ["pykotor"], vendor_dir ++ ["pykotor", "gone"]] }

/-- C9: the pruning walk deletes a directory only when it has no
entries left at that moment — in particular a directory keeping one
never-deleted file always survives the loop — and in the concrete run
the directory that contained only removed files is gone afterwards
(so is its emptied parent) while the directory holding the required
file remains. -/
theorem claim_C9_empty_dir_pruning :
    (∀ (vendor d q : FsPath), q.dropLast = d → q ≠ [] →
      ∀ (L : List FsPath) (fs : FS) (n : Nat),
        d ∈ fs.dirs → (∃ f ∈ fs.files, f.path = q) → ¬ q ∈ L →
        d ∈ (removeLoop fs vendor L n).1.dirs ∧
        (removeLoop fs vendor L n).1.fileExists q = true) ∧
    (removeLoop fs9 vendor_dir
        [vendor_dir ++ ["pykotor", "gone", "a.py"],
         vendor_dir ++ ["pykotor", "gone", "b.py"]] 0).1.dirs =
      [["vendor"], vendor_dir, vendor_dir ++ ["holopatcher"]] ∧
    (removeLoop fs9 vendor_dir
        [vendor_dir ++ ["pykotor", "gone", "a.py"],
         vendor_dir ++ ["pykotor", "gone", "b.py"]] 0).1.fileExists
      (vendor_dir ++ ["holopatcher", "__main__.py"]) = true := by
  refine ⟨fun vendor d q hdl hq =>
    removeLoop_keeps_occupied vendor d q hdl hq, ?_, ?_⟩
  · simp +decide [removeLoop, FS.unlink, FS.lookup, pruneParents, FS.hasEntries,
      FS.rmdir, FS.dirExists, fs9, vendor_dir]
  · simp +decide [removeLoop, FS.unlink, FS.lookup, pruneParents, FS.hasEntries,
      FS.rmdir, FS.dirExists, FS.fileExists, fs9, vendor_dir]

/-- A tree whose only directory below the root holds one kept file. -/
def fsC9w : FS :=
  { files := [{ path := vendor_dir ++ ["keep", "k.py"], stmts := some [],
                size := 1, locked := false }],
    dirs := [vendor_dir, vendor_dir ++ ["keep"]] }

theorem claim_C9_empty_dir_pruning_witness :
    vendor_dir ++ ["keep"] ∈
      (removeLoop fsC9w vendor_dir [] 0).1.dirs :=
  (claim_C9_empty_dir_pruning.1 vendor_dir (vendor_dir ++ ["keep"])
    (vendor_dir ++ ["keep", "k.py"]) (by simp +decide [vendor_dir])
    (by simp +decide [vendor_dir]) [] fsC9w 0
    (by simp +decide [fsC9w, vendor_dir])
    ⟨{ path := vendor_dir ++ ["keep", "k.py"], stmts := some [], size := 1,
       locked := false },
     by simp +decide [fsC9w, vendor_dir], rfl⟩
    (by simp)).1

theorem find?_path_of_any (l : List PyFile) (p : FsPath)
    (h : l.any (fun f => f.path = p) = true) :
    ∃ f, l.find? (fun f => f.path = p) = some f ∧ f ∈ l ∧ f.path = p := by
  induction l with
  | nil => simp at h
  | cons g l ih =>
    by_cases hg : g.path = p
    · refine ⟨g, ?_, List.mem_cons_self _ _, hg⟩
      rw [List.find?_cons]
      simp [hg]
    · have h' : l.any (fun f => f.path = p) = true := by
        simp only [List.any_cons, Bool.or_eq_true] at h
        rcases h with h | h
        · exact absurd (by simpa using h) hg
        · exact h
      obtain ⟨f, hfind, hmem, hfp⟩ := ih h'
      refine ⟨f, ?_, List.mem_cons_of_mem _ hmem, hfp⟩
      rw [List.find?_cons]
      simp [hg, hfind]

theorem lookup_of_fileExists {fs : FS} {p : FsPath}
    (h : fs.fileExists p = true) :
    ∃ f, fs.lookup p = some f ∧ f ∈ fs.files ∧ f.path = p :=
  find?_path_of_any fs.files p h

theorem find?_filter_ne (l : List PyFile) (p q : FsPath) (hne : q ≠ p) :
    (l.filter (fun g => ¬ g.path = p)).find? (fun f => f.path = q) =
      l.find? (fun f => f.path = q) := by
  induction l with
  | nil => rfl
  | cons g l ih =>
    rw [List.filter_cons]
    by_cases hgp : g.path = p
    · have hgq : ¬ g.path = q := by
        intro h2
        apply hne
        rw [← h2, hgp]
      rw [if_neg (by simp [hgp]), List.find?_cons, ih]
      simp [hgq]
    · rw [if_pos (by simp [hgp]), List.find?_cons, List.find?_cons]
      by_cases hgq : g.path = q
      · simp [hgq]
      · simp only [hgq, decide_False]
        exact ih

/-- With a duplicate-free batch of existing, unlocked files the cleanup
loop finishes without an escaping exception, and never invents files. -/
theorem removeLoop_ok (vendor : FsPath) :
    ∀ (L : List FsPath) (fs : FS) (n : Nat),
      L.Nodup →
      (∀ p ∈ L, ∃ f, fs.lookup p = some f ∧ f.locked = false) →
      (removeLoop fs vendor L n).2.2 = none ∧
      ∀ g ∈ (removeLoop fs vendor L n).1.files, g ∈ fs.files := by
  intro L
  induction L with
  | nil => intro fs n _ _; exact ⟨rfl, fun g hg => hg⟩
  | cons p rest ih =>
    intro fs n hnd hex
    obtain ⟨f, hf, hl⟩ := hex p (List.mem_cons_self _ _)
    have hu : fs.unlink p =
        .ok { fs with files := fs.files.filter (fun g => ¬ g.path = p) } := by
      unfold FS.unlink
      rw [hf]
      simp [hl]
    have hp_rest : ¬ p ∈ rest := (List.nodup_cons.mp hnd).1
    have hfs2 : (pruneParents { fs with
          files := fs.files.filter (fun g => ¬ g.path = p) } vendor
          p.dropLast p.length).files =
        fs.files.filter (fun g => ¬ g.path = p) :=
      pruneParents_files vendor p.length _ p.dropLast
    have hrest : ∀ q ∈ rest,
        ∃ f', (pruneParents { fs with
            files := fs.files.filter (fun g => ¬ g.path = p) } vendor
            p.dropLast p.length).lookup q = some f' ∧ f'.locked = false := by
      intro q hq
      have hqp : q ≠ p := fun he => hp_rest (he ▸ hq)
      obtain ⟨f', hf', hl'⟩ := hex q (List.mem_cons_of_mem _ hq)
      refine ⟨f', ?_, hl'⟩
      unfold FS.lookup
      rw [hfs2, find?_filter_ne _ _ _ hqp]
      exact hf'
    obtain ⟨h1, h2⟩ := ih _ (n + 1) (List.nodup_cons.mp hnd).2 hrest
    rw [removeLoop, hu]
    refine ⟨h1, fun g hg => ?_⟩
    have hmem := h2 g hg
    rw [hfs2] at hmem
    exact List.mem_of_mem_filter hmem

/-- Sweeping artifacts never fails when no file is locked, and never
invents files. -/
theorem sweepItems_ok :
    ∀ (items : List FsPath) (fs : FS),
      (∀ f ∈ fs.files, f.locked = false) →
      (sweepItems fs items).2 = none ∧
      ∀ g ∈ (sweepItems fs items).1.files, g ∈ fs.files := by
  intro items
  induction items with
  | nil => intro fs _; exact ⟨rfl, fun g hg => hg⟩
  | cons p rest ih =>
    intro fs h
    rw [sweepItems]
    by_cases hex : fs.fileExists p = true
    · obtain ⟨f, hf, hmem, _⟩ := lookup_of_fileExists hex
      have hl : f.locked = false := h f hmem
      have hu : fs.unlink p =
          .ok { fs with files := fs.files.filter (fun g => ¬ g.path = p) } := by
        unfold FS.unlink
        rw [hf]
        simp [hl]
      rw [if_pos hex, hu]
      obtain ⟨h1, h2⟩ := ih { fs with
          files := fs.files.filter (fun g => ¬ g.path = p) }
        (fun g hg => h g (List.mem_of_mem_filter hg))
      exact ⟨h1, fun g hg => List.mem_of_mem_filter (h2 g hg)⟩
    · rw [if_neg hex]
      by_cases hd : fs.dirExists p = true
      · rw [if_pos hd]
        obtain ⟨h1, h2⟩ := ih (fs.rmtree p)
          (fun g hg => h g (List.mem_of_mem_filter hg))
        exact ⟨h1, fun g hg => List.mem_of_mem_filter (h2 g hg)⟩
      · rw [if_neg hd]
        exact ih fs h

theorem sweepFold_ok (vendor : FsPath) :
    ∀ (pats : List String) (fs : FS),
      (∀ f ∈ fs.files, f.locked = false) →
      (pats.foldl
        (fun acc pat =>
          match acc with
          | (cur, some e) => (cur, some e)
          | (cur, none) => sweepItems cur (rglobAll cur vendor pat))
        (fs, none)).2 = none := by
  intro pats
  induction pats with
  | nil => intro fs _; rfl
  | cons pat rest ih =>
    intro fs h
    rw [List.foldl_cons]
    obtain ⟨h1, h2⟩ := sweepItems_ok (rglobAll fs vendor pat) fs h
    show (rest.foldl _ (sweepItems fs (rglobAll fs vendor pat))).2 = none
    have hth : sweepItems fs (rglobAll fs vendor pat) =
        ((sweepItems fs (rglobAll fs vendor pat)).1, none) := by
      rw [← h1]
    rw [hth]
    exact ih _ (fun g hg => h g (h2 g hg))

theorem removeUnusedDirs_id (fs : FS) (vendor : FsPath)
    (h : ∀ dn ∈ unused_dirs, fs.dirExists (vendor ++ dn) = false) :
    removeUnusedDirs fs vendor = fs := by
  have h1 := h ["utility", "gui", "qt"] (by simp [unused_dirs])
  have h2 := h ["utility", "ui_libraries"] (by simp [unused_dirs])
  have h3 := h ["pykotor", "resource", "formats", "tpc", "convert"]
    (by simp [unused_dirs])
  have h4 := h ["pykotor", "resource", "formats", "mdl"] (by simp [unused_dirs])
  simp [removeUnusedDirs, unused_dirs, h1, h2, h3, h4]

theorem insertSorted_perm (p : FsPath) (l : List FsPath) :
    List.Perm (insertSorted p l) (p :: l) := by
  induction l with
  | nil => exact List.Perm.refl _
  | cons q rest ih =>
    rw [insertSorted]
    by_cases hc : pathLe p q = true
    · rw [if_pos hc]
    · rw [if_neg hc]
      exact (List.Perm.cons q ih).trans (List.Perm.swap p q rest)

theorem sortPaths_perm (l : List FsPath) : List.Perm (sortPaths l) l := by
  induction l with
  | nil => exact List.Perm.refl _
  | cons p rest ih =>
    rw [sortPaths]
    exact (insertSorted_perm p (sortPaths rest)).trans (List.Perm.cons p ih)

theorem rglobPy_nodup (fs : FS) (d : FsPath)
    (h : (fs.files.map (fun f => f.path)).Nodup) : (rglobPy fs d).Nodup := by
  apply List.Nodup.sublist _ h
  unfold rglobPy
  exact List.Sublist.map _ (List.filter_sublist _)

/-- A present root and entry point whose only `.py` file holds zero
bytes. -/
def fsZeroMain : FS :=
  { files := [{ path := entry_point, stmts := some [], size := 0,
                locked := false }],
    dirs := [["vendor"], vendor_dir, vendor_dir ++ ["holopatcher"]] }

set_option maxRecDepth 8192 in
/-- C7 counterexample: with the root and entry point both present — and
zero removable files, which the claim calls success — the run still
ends with an escaping ZeroDivisionError (total `.py` size is zero), so
the process exits non-zero where the claim requires zero. -/
theorem claim_C7_counterexample :
    fsZeroMain.dirExists vendor_dir = true ∧
    fsZeroMain.fileExists entry_point = true ∧
    removable fsZeroMain = [] ∧
    main_run fsZeroMain =
      (fsZeroMain, .error "ZeroDivisionError: division by zero") := by
  refine ⟨?_, ?_, ?_, ?_⟩
  · simp +decide [FS.dirExists, fsZeroMain, vendor_dir]
  · simp +decide [FS.fileExists, fsZeroMain, vendor_dir, entry_point]
  · simp +decide [removable, all_py_files, required_files, rglobPy,
      find_all_dependencies, depsLoop, find_imports_in_file, FS.lookup,
      FS.fileExists, FS.dirExists, pathIsPy, isPyName, strEndsWith, globPy,
      strictUnder, rootSet, topName, takeUntilDot, stmtNames, fsZeroMain,
      vendor_dir, entry_point]
  · simp +decide [main_run, sizeReport, sumSizes, FS.statSize, removable,
      all_py_files, required_files, rglobPy, find_all_dependencies, depsLoop,
      find_imports_in_file, FS.lookup, FS.fileExists, FS.dirExists, pathIsPy,
      isPyName, strEndsWith, globPy, strictUnder, rootSet, topName,
      takeUntilDot, stmtNames, fsZeroMain, vendor_dir, entry_point]

/-- C7 amended: a missing vendored root or entry point makes `main`
return exit code 1 with the filesystem untouched (no mutation); when
both are present the run exits 0 — also with zero removable files —
provided no exception escapes, for which it suffices that the
inventory's total byte size is nonzero (otherwise the size report
raises ZeroDivisionError and the process exits non-zero), no file is
locked, file paths are duplicate-free, and none of the always-removed
subtrees is present. -/
theorem claim_C7_exit_codes (fs : FS) :
    (fs.dirExists vendor_dir = false → main_run fs = (fs, .ok 1)) ∧
    (fs.dirExists vendor_dir = true → fs.fileExists entry_point = false →
      main_run fs = (fs, .ok 1)) ∧
    (fs.dirExists vendor_dir = true → fs.fileExists entry_point = true →
      sumSizes fs (all_py_files fs) ≠ 0 →
      (∀ f ∈ fs.files, f.locked = false) →
      (fs.files.map (fun f => f.path)).Nodup →
      (∀ dn ∈ unused_dirs, fs.dirExists (vendor_dir ++ dn) = false) →
      (main_run fs).2 = .ok 0) := by
  refine ⟨?_, ?_, ?_⟩
  · intro h
    rw [main_run, if_pos (by simp [h])]
  · intro h1 h2
    rw [main_run, if_neg (by simp [h1]), if_pos (by simp [h2])]
  · intro h1 h2 htot hlock hnd hud
    have hrep : sizeReport fs (all_py_files fs) (required_files fs) =
        .ok (sumSizes fs ((all_py_files fs).filter
              (fun p => ¬ p ∈ required_files fs)),
             sumSizes fs (all_py_files fs),
             (sumSizes fs ((all_py_files fs).filter
               (fun p => ¬ p ∈ required_files fs)) : ℚ) /
               (sumSizes fs (all_py_files fs) : ℚ) * 100) := by
      simp only [sizeReport]
      rw [if_neg htot]
    have hLnodup : (sortPaths (removable fs)).Nodup :=
      ((sortPaths_perm _).nodup_iff).mpr
        (List.Nodup.filter _ (rglobPy_nodup fs vendor_dir hnd))
    have hLex : ∀ p ∈ sortPaths (removable fs),
        ∃ f, fs.lookup p = some f ∧ f.locked = false := by
      intro p hp
      have hp' : p ∈ removable fs := ((sortPaths_perm _).mem_iff).mp hp
      have hap : p ∈ all_py_files fs := List.mem_of_mem_filter hp'
      obtain ⟨f0, hf0mem, hf0p, _, _⟩ := mem_rglobPy.mp hap
      have hex : fs.fileExists p = true :=
        fileExists_iff.mpr ⟨f0, hf0mem, hf0p⟩
      obtain ⟨f, hf, hmem, _⟩ := lookup_of_fileExists hex
      exact ⟨f, hf, hlock f hmem⟩
    obtain ⟨hnone, hsub⟩ :=
      removeLoop_ok vendor_dir (sortPaths (removable fs)) fs 0 hLnodup hLex
    rw [main_run, if_neg (by simp [h1]), if_neg (by simp [h2])]
    simp only [hrep, removeUnusedDirs_id fs vendor_dir hud]
    generalize hR : removeLoop fs vendor_dir (sortPaths (removable fs)) 0 = R
    rw [hR] at hnone hsub
    obtain ⟨fs2, cnt, err⟩ := R
    cases err with
    | some e => exact absurd hnone (by simp)
    | none =>
      have hnl2 : ∀ f ∈ fs2.files, f.locked = false :=
        fun f hf => hlock f (hsub f hf)
      have hswnone : (artifactSweep fs2 vendor_dir).2 = none :=
        sweepFold_ok vendor_dir artifactPatterns fs2 hnl2
      dsimp only
      generalize hS : artifactSweep fs2 vendor_dir = S
      rw [hS] at hswnone
      obtain ⟨fs3, err3⟩ := S
      cases err3 with
      | some e => exact absurd hswnone (by simp)
      | none => rfl

/-- A healthy tree: root and entry point present, one removable file,
nothing locked, no always-removed subtree present. -/
def fsC7 : FS :=
  { files := [
      { path := entry_point, stmts := some [], size := 3, locked := false },
      { path := vendor_dir ++ ["pykotor", "unused.py"], stmts := some [],
        size := 4, locked := false }],
    dirs := [["vendor"], vendor_dir, vendor_dir ++ ["holopatcher"],
             vendor_dir ++ ["pykotor"]] }

theorem claim_C7_exit_codes_witness : (main_run fsC7).2 = .ok 0 :=
  (claim_C7_exit_codes fsC7).2.2
    (by decide)
    (by decide)
    (by simp +decide [sumSizes, FS.statSize, FS.lookup, FS.fileExists,
      all_py_files, rglobPy, strictUnder, globPy, strEndsWith, fsC7,
      vendor_dir, entry_point])
    (by decide)
    (by decide)
    (by decide)
